import Mathlib

/-!
Verification of the HR-Demo-App session-log server.

The Go sources embedded here live in the `server` package: the append-only
record store (`saveUpload`), the upload endpoint (`UploadHandler`), the
session naming function (`uploadNameFromKey`), and the key registry checks.
Files are modelled as lists of characters (one character per byte for the
ASCII data the server handles); the line scanner models `bufio.Scanner`
with the 16 MiB maximum token size both call sites configure.
-/

namespace HRDemo

/-- Character predicate matching Go `unicode.IsSpace` on the code points
that can occur in the data handled by the server (`strings.TrimSpace`
trims these from both ends). -/
def isGoSpace (c : Char) : Bool :=
  c.toNat = 9 || c.toNat = 10 || c.toNat = 11 || c.toNat = 12 || c.toNat = 13 ||
  c.toNat = 32 || c.toNat = 133 || c.toNat = 160 || c.toNat = 0x1680 ||
  (0x2000 ≤ c.toNat && c.toNat ≤ 0x200a) ||
  c.toNat = 0x2028 || c.toNat = 0x2029 || c.toNat = 0x202f ||
  c.toNat = 0x205f || c.toNat = 0x3000

/-- Model of Go `strings.TrimSpace`: drop leading and trailing space characters. -/
def trimSpace (l : List Char) : List Char :=
  ((l.dropWhile isGoSpace).reverse.dropWhile isGoSpace).reverse

/-- Model of Go `strings.ToLower` on the ASCII range (session keys are hex). -/
def toLowerChar (c : Char) : Char :=
  if 65 ≤ c.toNat ∧ c.toNat ≤ 90 then Char.ofNat (c.toNat + 32) else c

/-- Model of `dropCR` in `bufio.ScanLines`: strip one trailing carriage return. -/
def dropCR (l : List Char) : List Char :=
  if l.getLast? = some '\r' then l.dropLast else l

/-- Raw newline-separated segments of a byte sequence: the pieces strictly
between the newline bytes, including a (possibly empty) final piece after
the last newline. The result is always non-empty. -/
def chunksOf : List Char → List (List Char)
  | [] => [[]]
  | c :: rest =>
    let r := chunksOf rest
    if c = '\n' then [] :: r
    else
      match r with
      | [] => [[c]]
      | h :: t => (c :: h) :: t

/-- Maximum token size both `bufio.Scanner` call sites configure
(`scanner.Buffer(buf, 16*1024*1024)`). -/
def maxTokenSize : Nat := 16 * 1024 * 1024

/-- Model of a `bufio.Scanner` loop over the chunks of the input with the
`ScanLines` split function and a maximum token size: tokens before the
first oversized chunk, with `dropCR` applied, a trailing empty chunk not
emitted, and a flag recording whether `ErrTooLong` was hit (a chunk of
length at least `max` cannot fit in the scanner buffer). -/
def scanGo (max : Nat) : List (List Char) → List (List Char) × Bool
  | [] => ([], false)
  | [c] =>
    if max ≤ c.length then ([], true)
    else if c.isEmpty then ([], false) else ([dropCR c], false)
  | c :: c' :: rest =>
    if max ≤ c.length then ([], true)
    else
      let r := scanGo max (c' :: rest)
      (dropCR c :: r.1, r.2)

/-- Tokens a `bufio.Scanner` with the configured 16 MiB limit delivers for
the given byte sequence. -/
def tokensOf (s : List Char) : List (List Char) :=
  (scanGo maxTokenSize (chunksOf s)).1

/-- Whether the scanner reports an error (`ErrTooLong`) on the given bytes. -/
def scanErrOf (s : List Char) : Bool :=
  (scanGo maxTokenSize (chunksOf s)).2

/-- Scanner tokens of a chunk list when no chunk is oversized: every chunk
with `dropCR` applied, except that a trailing empty chunk yields no token. -/
def tokensPure : List (List Char) → List (List Char)
  | [] => []
  | [c] => if c.isEmpty then [] else [dropCR c]
  | c :: c' :: rest => dropCR c :: tokensPure (c' :: rest)

/-- Decimal digit character, as produced by `strconv.Itoa`. -/
def digitChar (d : Nat) : Char := Char.ofNat (48 + d)

/-- Fuel-driven decimal rendering: digits of `n`, most significant first;
`fuel` bounds the recursion depth (any `fuel ≥ n` is exact for `n ≥ 1`). -/
def digitsCore : Nat → Nat → List Char
  | 0, _ => []
  | fuel + 1, n =>
    if n = 0 then [] else digitsCore fuel (n / 10) ++ [digitChar (n % 10)]

/-- Model of Go `strconv.Itoa` on natural numbers. -/
def natToChars (n : Nat) : List Char :=
  if n = 0 then ['0'] else digitsCore n n

/-- One stored record line as `saveUpload` writes it (without the trailing
newline): `<index>,<payload>`. -/
def recordLine (i : Nat) (p : List Char) : List Char :=
  natToChars i ++ ',' :: p

/-- Record lines for a batch of payloads with consecutive indices from `k`. -/
def recordLines : Nat → List (List Char) → List (List Char)
  | _, [] => []
  | k, p :: ps => recordLine k p :: recordLines (k + 1) ps

/-- Bytes `saveUpload` appends for a batch: each record line followed by a
newline, indices consecutive from `k`. -/
def encodeRecords : Nat → List (List Char) → List Char
  | _, [] => []
  | k, p :: ps => recordLine k p ++ '\n' :: encodeRecords (k + 1) ps

/-- Count of existing records computed by the scan in `saveUpload`
(lines 454-471): skip the first token (metadata line), count the tokens
whose trimmed form is non-blank. -/
def countDataLines (s : List Char) : Nat :=
  ((tokensOf s).drop 1).countP fun t => !(trimSpace t).isEmpty

/-- File contents after a successful `saveUpload` call: on a fresh (empty)
file write the metadata line first; on a non-empty file whose final byte
is not a newline write one corrective newline; then append the batch as
indexed record lines, indices continuing after the counted existing
records (lines 445-524 of the store). -/
def saveUploadContent (meta content : List Char) (batch : List (List Char)) : List Char :=
  let isNew := content.isEmpty
  let existing := if isNew then 0 else countDataLines content
  let needsNl := !isNew && !(content.getLast? == some '\n')
  let headerBytes := if isNew then meta ++ ['\n'] else if needsNl then ['\n'] else []
  content ++ headerBytes ++ encodeRecords (existing + 1) batch

/-- Hex digit test matching `encoding/hex` (digits, lowercase and uppercase letters). -/
def isHexDigit (c : Char) : Bool :=
  (48 ≤ c.toNat && c.toNat ≤ 57) || (97 ≤ c.toNat && c.toNat ≤ 102) ||
  (65 ≤ c.toNat && c.toNat ≤ 70)

/-- Numeric value of a hex digit character. -/
def hexVal (c : Char) : Nat :=
  if 48 ≤ c.toNat ∧ c.toNat ≤ 57 then c.toNat - 48
  else if 97 ≤ c.toNat ∧ c.toNat ≤ 102 then c.toNat - 87
  else c.toNat - 55

/-- Model of Go `hex.DecodeString`: pairs of hex digits to byte values;
fails on an odd-length input or any non-hex character. -/
def hexDecode : List Char → Option (List Nat)
  | [] => some []
  | c1 :: c2 :: rest =>
    if isHexDigit c1 && isHexDigit c2 then
      (hexDecode rest).map fun bs => (hexVal c1 * 16 + hexVal c2) :: bs
    else none
  | [_] => none

/-- Expected hexadecimal length of a session key (`uploadKeyHexLength`). -/
def uploadKeyHexLength : Nat := 128

/-- Number of words in a derived session name (`uploadNameWordCount`). -/
def uploadNameWordCount : Nat := 4

/-- Fixed word list the session naming function indexes into (`uploadNameWords`). -/
def uploadNameWords : List (List Char) :=
  ["correct", "battery", "horse", "staple", "amber", "beacon", "celestial",
   "delta", "ember", "fable", "galaxy", "harbor", "ionic", "jungle",
   "keystone", "lantern", "meadow", "nebula", "opal", "prairie", "quartz",
   "ripple", "solstice", "tundra", "uplink", "voyage", "whisper", "xenon",
   "yonder", "zephyr", "aurora", "cascade", "dawn", "evergreen", "frost",
   "glimmer", "horizon", "island", "juniper", "kestrel", "lilac",
   "meridian", "nimbus", "onyx", "pioneer", "quiver", "resonance",
   "saffron", "topaz"].map String.data

/-- Word chosen for position `i` of a session name: the 16-bit big-endian
value of key bytes `2i` and `2i+1`, reduced modulo the word-list length,
used as an index into the word list. -/
def nameWordAt (bytes : List Nat) (i : Nat) : List Char :=
  uploadNameWords.getD
    ((bytes.getD (2 * i) 0 * 256 + bytes.getD (2 * i + 1) 0) % uploadNameWords.length) []

/-- Model of Go `strings.Join(words, " ")`. -/
def joinSpace : List (List Char) → List Char
  | [] => []
  | [w] => w
  | w :: ws => w ++ ' ' :: joinSpace ws

/-- Model of `uploadNameFromKey` (lines 391-411): normalize the key
(trim, lowercase), hex-decode it, and on success with at least
`2 * uploadNameWordCount` bytes join the four derived words; otherwise
return the fixed fallback label. -/
def uploadNameFromKey (key : List Char) : List Char :=
  if uploadNameWords.length = 0 then "upload".data
  else
    match hexDecode ((trimSpace key).map toLowerChar) with
    | none => "upload".data
    | some bytes =>
      if bytes.length < uploadNameWordCount * 2 then "upload".data
      else joinSpace ((List.range uploadNameWordCount).map (nameWordAt bytes))

/-- Distinct responses of `UploadHandler`, one per `http.Error` or success
branch in the source. -/
inductive UploadResp
  | missingKey
  | badLength
  | badHex
  | unknownKey
  | badJson (line : Nat)
  | readErr
  | storeErr
  | accepted (records : Nat)
  deriving DecidableEq

/-- HTTP status the handler writes for each response. -/
def statusOf : UploadResp → Nat
  | .accepted _ => 200
  | .storeErr => 500
  | _ => 400

/-- Result of one `UploadHandler` call: the response and the resulting
store state for the addressed key (file contents, or `none` for no file). -/
structure UploadOutcome where
  resp : UploadResp
  store : Option (List Char)
  deriving DecidableEq

/-- Body-line collection loop of `UploadHandler` (lines 609-628): trim each
scanner token, skip blank lines, validate the rest with the JSON check;
the first invalid line aborts with its reported line number, which is one
more than the number of records accepted so far. -/
def collectLines (jsonValid : List Char → Bool) (count : Nat) :
    List (List Char) → Except Nat (List (List Char))
  | [] => .ok []
  | t :: ts =>
    let line := trimSpace t
    if line.isEmpty then collectLines jsonValid count ts
    else if jsonValid line then
      match collectLines jsonValid (count + 1) ts with
      | .error e => .error e
      | .ok rest => .ok (line :: rest)
    else .error (count + 1)

/-- Model of `UploadHandler` (lines 567-664), parametric in the JSON
syntax validator (`json.Unmarshal` into `json.RawMessage` in Go): the key
is trimmed, lowercased, and checked for presence, exact hex length, hex
decodability, and registry membership; then the body is scanned, its
non-blank lines validated, and on success the batch is handed to the
store. A scan error on the existing file surfaces as the internal store
error; environmental write failures are modelled separately by
`saveUploadRun`. -/
def uploadHandler (jsonValid : List Char → Bool) (rawKey : List Char)
    (registry : List (List Char)) (body meta : List Char)
    (store : Option (List Char)) : UploadOutcome :=
  if ((trimSpace rawKey).map toLowerChar).isEmpty then ⟨.missingKey, store⟩
  else if ((trimSpace rawKey).map toLowerChar).length ≠ uploadKeyHexLength then
    ⟨.badLength, store⟩
  else if (hexDecode ((trimSpace rawKey).map toLowerChar)).isNone then ⟨.badHex, store⟩
  else if !(registry.contains ((trimSpace rawKey).map toLowerChar)) then
    ⟨.unknownKey, store⟩
  else
    match collectLines jsonValid 0 (tokensOf body) with
    | .error ln => ⟨.badJson ln, store⟩
    | .ok batch =>
      if scanErrOf body then ⟨.readErr, store⟩
      else if !(store.getD []).isEmpty && scanErrOf (store.getD []) then
        ⟨.storeErr, store⟩
      else ⟨.accepted batch.length, some (saveUploadContent meta (store.getD []) batch)⟩

/-- Stage of a `saveUpload` call at which the environment makes an
operation fail. -/
inductive FailStage
  | duringScan
  | duringWrite
  | duringFlush
  deriving DecidableEq

/-- Model of one full `saveUpload` call with failure injection
(lines 413-532): `old` is the file state before the call (`none` for no
file; opening with `O_CREATE` turns that into empty content). The
`cleanupOnErr` flag in the source is set exactly when the opened file is
empty, so a failure after that point removes the file only on the
`isNew` path; the scan runs only on a non-empty file and its failure
leaves the pre-existing content untouched. Returns the resulting file
state and a success flag. -/
def saveUploadRun (meta : List Char) (old : Option (List Char))
    (batch : List (List Char)) (fail : Option FailStage) :
    Option (List Char) × Bool :=
  if !(old.getD []).isEmpty && (scanErrOf (old.getD []) || fail == some .duringScan) then
    (some (old.getD []), false)
  else if fail == some .duringWrite || fail == some .duringFlush then
    (if (old.getD []).isEmpty then none else some (old.getD []), false)
  else
    (some (saveUploadContent meta (old.getD []) batch), true)

/-- Well-formedness of a batch as produced by the upload handler loop:
each payload is a non-empty scanner token fixed by trimming. -/
abbrev goodBatch (B : List (List Char)) : Prop :=
  ∀ p ∈ B, p ≠ [] ∧ '\n' ∉ p ∧ trimSpace p = p

/-- Data lines of a session log file: every scanner token after the
metadata line whose trimmed form is non-blank, in stored order. -/
def dataLinesOf (s : List Char) : List (List Char) :=
  ((tokensOf s).drop 1).filter fun t => !(trimSpace t).isEmpty

/-- Follow responses: no new data, or new data with the returned lines. -/
inductive FollowResp
  | noData (newCursor : Nat)
  | data (newCursor : Nat) (lines : List (List Char))
  deriving DecidableEq

/-- Modelled from the spec: the implementation of `FollowHandler` is not
under src (only its route in cmd/server/main.go and its tests are).
Following spec section 4.5: with no log file the result is no new data
with cursor 0; otherwise the file is read, the metadata line skipped and
the data lines collected; with `total` data lines, a cursor at least
`total` yields no new data with cursor `total`, and a smaller cursor
yields the data lines after position `cursor` with cursor `total`. -/
def handleFollow (file : Option (List Char)) (cursor : Nat) : FollowResp :=
  match file with
  | none => .noData 0
  | some content =>
    let ds := dataLinesOf content
    if ds.length ≤ cursor then .noData ds.length
    else .data ds.length (ds.drop cursor)

/-! Helper lemmas about the scanner and encoding functions. -/

theorem digitsCore_mem : ∀ fuel n c, c ∈ digitsCore fuel n → ∃ d, d < 10 ∧ c = digitChar d
  | 0, _, _, h => by simp [digitsCore] at h
  | fuel + 1, n, c, h => by
    by_cases hn : n = 0
    · simp [digitsCore, hn] at h
    · simp only [digitsCore, if_neg hn, List.mem_append, List.mem_singleton] at h
      rcases h with h | h
      · exact digitsCore_mem fuel (n / 10) c h
      · exact ⟨n % 10, Nat.mod_lt _ (by decide), h⟩

theorem natToChars_no_nl (n : Nat) : '\n' ∉ natToChars n := by
  unfold natToChars
  split
  · decide
  · intro h
    obtain ⟨d, hd, hc⟩ := digitsCore_mem n n '\n' h
    interval_cases d <;> exact absurd hc (by decide)

theorem recordLine_no_nl (i : Nat) (p : List Char) (hp : '\n' ∉ p) :
    '\n' ∉ recordLine i p := by
  unfold recordLine
  intro h
  rcases List.mem_append.1 h with h | h
  · exact natToChars_no_nl i h
  · rcases List.mem_cons.1 h with h | h
    · exact absurd h (by decide)
    · exact hp h

theorem chunksOf_no_nl : ∀ l : List Char, '\n' ∉ l → chunksOf l = [l]
  | [], _ => rfl
  | c :: rest, h => by
    have hc : ¬(c = '\n') := fun e => h (e ▸ List.mem_cons_self c rest)
    have ih := chunksOf_no_nl rest fun m => h (List.mem_cons_of_mem _ m)
    simp [chunksOf, hc, ih]

theorem chunksOf_append_nl : ∀ a b : List Char, '\n' ∉ a →
    chunksOf (a ++ '\n' :: b) = a :: chunksOf b
  | [], b, _ => by simp [chunksOf]
  | c :: a, b, h => by
    have hc : ¬(c = '\n') := fun e => h (e ▸ List.mem_cons_self c a)
    have ih := chunksOf_append_nl a b fun m => h (List.mem_cons_of_mem _ m)
    simp [chunksOf, hc, ih]

theorem chunksOf_encode : ∀ (k : Nat) (B : List (List Char)) (t : List Char),
    (∀ p ∈ B, '\n' ∉ p) →
    chunksOf (encodeRecords k B ++ t) = recordLines k B ++ chunksOf t
  | _, [], t, _ => by simp [encodeRecords, recordLines]
  | k, p :: ps, t, h => by
    have hp : '\n' ∉ recordLine k p :=
      recordLine_no_nl k p (h p (List.mem_cons_self p ps))
    have ih := chunksOf_encode (k + 1) ps t fun q hq => h q (List.mem_cons_of_mem _ hq)
    rw [encodeRecords, recordLines]
    rw [show recordLine k p ++ '\n' :: encodeRecords (k + 1) ps ++ t
        = recordLine k p ++ '\n' :: (encodeRecords (k + 1) ps ++ t) by simp]
    rw [chunksOf_append_nl _ _ hp, ih, List.cons_append]

theorem scanGo_all_short (max : Nat) : ∀ chs : List (List Char),
    (∀ c ∈ chs, c.length < max) → scanGo max chs = (tokensPure chs, false)
  | [], _ => rfl
  | [c], h => by
    have hc : ¬(max ≤ c.length) := Nat.not_le.2 (h c (List.mem_singleton_self c))
    simp only [scanGo, tokensPure, if_neg hc]
    split <;> rfl
  | c :: c' :: rest, h => by
    have hc : ¬(max ≤ c.length) := Nat.not_le.2 (h c (List.mem_cons_self _ _))
    have ih := scanGo_all_short max (c' :: rest) fun x hx => h x (List.mem_cons_of_mem _ hx)
    simp [scanGo, tokensPure, hc, ih]

theorem tokensPure_append_single : ∀ (xs : List (List Char)) (t : List Char),
    tokensPure (xs ++ [t]) = xs.map dropCR ++ (if t.isEmpty then [] else [dropCR t])
  | [], t => by simp [tokensPure]
  | x :: xs, t => by
    have ih := tokensPure_append_single xs t
    cases xs with
    | nil => simp [tokensPure]
    | cons y ys => simpa [tokensPure] using ih

theorem dropCR_eq_self (l : List Char) (h : l.getLast? ≠ some '\r') : dropCR l = l := by
  unfold dropCR
  exact if_neg h

theorem head?_dropWhile_false (p : Char → Bool) :
    ∀ (l : List Char) (c : Char), (l.dropWhile p).head? = some c → p c = false
  | [], c, h => by simp [List.dropWhile] at h
  | a :: l, c, h => by
    rw [List.dropWhile_cons] at h
    split at h
    · exact head?_dropWhile_false p l c h
    · next ha =>
      simp only [List.head?_cons, Option.some_inj] at h
      subst h
      exact Bool.not_eq_true _ |>.mp ha

theorem trim_fix_last (l : List Char) (c : Char) (hfix : trimSpace l = l)
    (hl : l.getLast? = some c) : isGoSpace c = false := by
  have e : l.reverse = (l.dropWhile isGoSpace).reverse.dropWhile isGoSpace := by
    conv_lhs => rw [← hfix]
    simp [trimSpace]
  apply head?_dropWhile_false isGoSpace (l.dropWhile isGoSpace).reverse
  rw [← e, List.head?_reverse]
  exact hl

theorem trim_ne_nil (l : List Char) (c : Char) (hc : c ∈ l)
    (hcs : isGoSpace c = false) : ¬trimSpace l = [] := by
  intro h
  have h2 : (l.dropWhile isGoSpace).reverse.dropWhile isGoSpace = [] := by
    have := congrArg List.reverse h
    simpa [trimSpace] using this
  have h4 : ∀ x ∈ l.dropWhile isGoSpace, isGoSpace x := by
    intro x hx
    exact List.dropWhile_eq_nil_iff.mp h2 x (List.mem_reverse.2 hx)
  have h5 : c ∈ l.takeWhile isGoSpace ∨ c ∈ l.dropWhile isGoSpace := by
    rw [← List.mem_append, List.takeWhile_append_dropWhile]
    exact hc
  cases h5 with
  | inl h6 => exact absurd (List.mem_takeWhile_imp h6) (by simp [hcs])
  | inr h6 => exact absurd (h4 c h6) (by simp [hcs])

theorem recordLines_length : ∀ (k : Nat) (B : List (List Char)),
    (recordLines k B).length = B.length
  | _, [] => rfl
  | k, _ :: ps => by simp [recordLines, recordLines_length (k + 1) ps]

theorem recordLines_append : ∀ (k : Nat) (B1 B2 : List (List Char)),
    recordLines k (B1 ++ B2) = recordLines k B1 ++ recordLines (k + B1.length) B2
  | k, [], B2 => by simp [recordLines]
  | k, p :: ps, B2 => by
    have ih := recordLines_append (k + 1) ps B2
    have e : k + (p :: ps).length = k + 1 + ps.length := by
      simp only [List.length_cons]
      omega
    rw [List.cons_append, recordLines, recordLines, e, ih, List.cons_append]

theorem encodeRecords_append : ∀ (k : Nat) (B1 B2 : List (List Char)),
    encodeRecords k (B1 ++ B2) = encodeRecords k B1 ++ encodeRecords (k + B1.length) B2
  | k, [], B2 => by simp [encodeRecords]
  | k, p :: ps, B2 => by
    have ih := encodeRecords_append (k + 1) ps B2
    have e : k + (p :: ps).length = k + 1 + ps.length := by
      simp only [List.length_cons]
      omega
    rw [List.cons_append, encodeRecords, encodeRecords, e, ih]
    simp

theorem mem_recordLines : ∀ (k : Nat) (B : List (List Char)) (t : List Char),
    t ∈ recordLines k B → ∃ i p, p ∈ B ∧ t = recordLine i p
  | k, p :: ps, t, h => by
    rcases List.mem_cons.1 h with h | h
    · exact ⟨k, p, List.mem_cons_self p ps, h⟩
    · obtain ⟨i, q, hq, ht⟩ := mem_recordLines (k + 1) ps t h
      exact ⟨i, q, List.mem_cons_of_mem _ hq, ht⟩

theorem getLast?_append_encode : ∀ (B : List (List Char)) (a : List Char) (k : Nat),
    (a ++ '\n' :: encodeRecords k B).getLast? = some '\n'
  | [], a, k => by
    simp only [encodeRecords]
    exact List.getLast?_concat a
  | p :: ps, a, k => by
    have ih := getLast?_append_encode ps (a ++ '\n' :: recordLine k p) (k + 1)
    rw [encodeRecords,
      show a ++ '\n' :: (recordLine k p ++ '\n' :: encodeRecords (k + 1) ps)
        = (a ++ '\n' :: recordLine k p) ++ '\n' :: encodeRecords (k + 1) ps by simp]
    exact ih

theorem recordLine_getLast? (i : Nat) (p : List Char) (hp : p ≠ []) :
    (recordLine i p).getLast? = p.getLast? := by
  unfold recordLine
  rw [List.getLast?_append_of_ne_nil _ (by simp),
    show (',' :: p) = [','] ++ p by rfl,
    List.getLast?_append_of_ne_nil _ hp]

theorem recordLine_not_blank (i : Nat) (p : List Char) :
    (!(trimSpace (recordLine i p)).isEmpty) = true := by
  have hmem : ',' ∈ recordLine i p := by
    unfold recordLine
    exact List.mem_append.2 (Or.inr (List.mem_cons_self _ _))
  have := trim_ne_nil (recordLine i p) ',' hmem (by decide)
  simpa [List.isEmpty_iff] using this

theorem dropCR_recordLine (i : Nat) (p : List Char) (hp : p ≠ [])
    (hfix : trimSpace p = p) : dropCR (recordLine i p) = recordLine i p := by
  apply dropCR_eq_self
  rw [recordLine_getLast? i p hp]
  intro hlast
  have := trim_fix_last p '\r' hfix hlast
  exact absurd this (by decide)

theorem goodBatch_append_left {B1 B2 : List (List Char)} (h : goodBatch (B1 ++ B2)) :
    goodBatch B1 :=
  fun p hp => h p (List.mem_append.2 (Or.inl hp))

/-- Master tokenization lemma: a store-shaped byte sequence — metadata
line, newline, encoded batch, optional unterminated tail `t` — scans into
the metadata token, the record-line tokens, and (when `t` is non-empty)
the tail token, with no scanner error. -/
theorem scan_store_file (meta : List Char) (k : Nat) (B : List (List Char))
    (t : List Char)
    (hmn : '\n' ∉ meta) (hmr : meta.getLast? ≠ some '\r')
    (hml : meta.length < maxTokenSize)
    (hB : goodBatch B)
    (hrl : ∀ l ∈ recordLines k B, l.length < maxTokenSize)
    (htn : '\n' ∉ t) (htl : t.length < maxTokenSize) :
    scanGo maxTokenSize (chunksOf (meta ++ '\n' :: (encodeRecords k B ++ t)))
      = (meta :: recordLines k B ++ (if t.isEmpty then [] else [dropCR t]), false) := by
  have hch : chunksOf (meta ++ '\n' :: (encodeRecords k B ++ t))
      = meta :: (recordLines k B ++ [t]) := by
    rw [chunksOf_append_nl _ _ hmn, chunksOf_encode k B t fun p hp => (hB p hp).2.1,
      chunksOf_no_nl t htn]
  rw [hch]
  have hshort : ∀ c ∈ meta :: (recordLines k B ++ [t]), c.length < maxTokenSize := by
    intro c hc
    rcases List.mem_cons.1 hc with hc | hc
    · exact hc ▸ hml
    · rcases List.mem_append.1 hc with hc | hc
      · exact hrl c hc
      · rw [List.mem_singleton.1 hc]; exact htl
  rw [scanGo_all_short maxTokenSize _ hshort]
  have hrec : ∀ l ∈ recordLines k B, dropCR l = l := by
    intro l hl
    obtain ⟨i, p, hp, rfl⟩ := mem_recordLines k B l hl
    exact dropCR_recordLine i p (hB p hp).1 (hB p hp).2.2
  rw [show meta :: (recordLines k B ++ [t]) = (meta :: recordLines k B) ++ [t] by simp,
    tokensPure_append_single, List.map_cons, List.map_congr_left hrec,
    dropCR_eq_self meta hmr, List.cons_append]
  simp

/-- Counting corollary of the master lemma: the store scan counts exactly
the records of the encoded batch plus one for a non-blank unterminated tail. -/
theorem count_store_file (meta : List Char) (k : Nat) (B : List (List Char))
    (t : List Char)
    (hmn : '\n' ∉ meta) (hmr : meta.getLast? ≠ some '\r')
    (hml : meta.length < maxTokenSize)
    (hB : goodBatch B)
    (hrl : ∀ l ∈ recordLines k B, l.length < maxTokenSize)
    (htn : '\n' ∉ t) (htl : t.length < maxTokenSize)
    (htr : t.getLast? ≠ some '\r') :
    countDataLines (meta ++ '\n' :: (encodeRecords k B ++ t))
      = B.length + (if (trimSpace t).isEmpty then 0 else 1) := by
  unfold countDataLines tokensOf
  rw [scan_store_file meta k B t hmn hmr hml hB hrl htn htl]
  simp only [List.drop_one, List.cons_append, List.tail_cons, List.countP_append]
  have h1 : (recordLines k B).countP (fun u => !(trimSpace u).isEmpty) = B.length := by
    rw [← recordLines_length k B]
    apply List.countP_eq_length.2
    intro l hl
    obtain ⟨i, p, _, rfl⟩ := mem_recordLines k B l hl
    exact recordLine_not_blank i p
  rw [h1, dropCR_eq_self t htr]
  by_cases ht : t.isEmpty
  · have : t = [] := List.isEmpty_iff.mp ht
    subst this
    simp [trimSpace, List.dropWhile]
  · simp only [if_neg ht, List.countP_cons, List.countP_nil]
    by_cases hb : (trimSpace t).isEmpty
    · simp [hb]
    · simp [hb]

/-! Store-level lemmas. -/

theorem saveUploadContent_new (meta : List Char) (batch : List (List Char)) :
    saveUploadContent meta [] batch = meta ++ '\n' :: encodeRecords 1 batch := by
  unfold saveUploadContent
  simp

theorem saveUploadContent_terminated (meta content : List Char)
    (batch : List (List Char)) (hne : content ≠ [])
    (hlast : content.getLast? = some '\n') :
    saveUploadContent meta content batch
      = content ++ encodeRecords (countDataLines content + 1) batch := by
  unfold saveUploadContent
  have h1 : content.isEmpty = false := by simp [List.isEmpty_iff, hne]
  simp [h1, hlast]

theorem saveUploadContent_repair (meta content : List Char)
    (batch : List (List Char)) (hne : content ≠ [])
    (hlast : content.getLast? ≠ some '\n') :
    saveUploadContent meta content batch
      = content ++ '\n' :: encodeRecords (countDataLines content + 1) batch := by
  unfold saveUploadContent
  have h1 : content.isEmpty = false := by simp [List.isEmpty_iff, hne]
  have h2 : (content.getLast? == some '\n') = false := by
    simp [hlast]
  simp [h1, h2]

theorem store_prefix_ne_nil (meta rest : List Char) : meta ++ '\n' :: rest ≠ [] := by
  simp

theorem getLast?_store_tail (meta e t : List Char) (ht : t ≠ []) :
    (meta ++ '\n' :: (e ++ t)).getLast? = t.getLast? := by
  rw [List.getLast?_append_of_ne_nil _ (List.cons_ne_nil _ _),
    show ('\n' :: (e ++ t)) = ['\n'] ++ (e ++ t) from rfl,
    List.getLast?_append_of_ne_nil _ (by simp [ht]),
    List.getLast?_append_of_ne_nil _ ht]

/-! Handler-level lemmas. -/

theorem collectLines_all_blank (jv : List Char → Bool) : ∀ (c : Nat) (ts : List (List Char)),
    (∀ u ∈ ts, (trimSpace u).isEmpty = true) → collectLines jv c ts = .ok []
  | _, [], _ => rfl
  | c, t :: ts, h => by
    have ht := h t (List.mem_cons_self _ _)
    have ih := collectLines_all_blank jv c ts fun u hu => h u (List.mem_cons_of_mem _ hu)
    simp [collectLines, ht, ih]

theorem collectLines_first_invalid (jv : List Char → Bool) :
    ∀ (pre : List (List Char)) (c : Nat) (t : List Char) (post : List (List Char)),
    (∀ u ∈ pre, (trimSpace u).isEmpty = true ∨ jv (trimSpace u) = true) →
    (trimSpace t).isEmpty = false → jv (trimSpace t) = false →
    collectLines jv c (pre ++ t :: post)
      = .error (c + pre.countP (fun u => !(trimSpace u).isEmpty) + 1)
  | [], c, t, post, _, ht1, ht2 => by
    simp [collectLines, ht1, ht2]
  | u :: pre, c, t, post, hpre, ht1, ht2 => by
    have hu := hpre u (List.mem_cons_self _ _)
    have hrest : ∀ v ∈ pre, (trimSpace v).isEmpty = true ∨ jv (trimSpace v) = true :=
      fun v hv => hpre v (List.mem_cons_of_mem _ hv)
    by_cases hb : (trimSpace u).isEmpty = true
    · have ih := collectLines_first_invalid jv pre c t post hrest ht1 ht2
      simp [collectLines, hb, ih, List.countP_cons]
    · have hbe : (trimSpace u).isEmpty = false := by
        revert hb
        cases (trimSpace u).isEmpty <;> simp
      have hj : jv (trimSpace u) = true := by
        rcases hu with h | h
        · exact absurd h hb
        · exact h
      have ih := collectLines_first_invalid jv pre (c + 1) t post hrest ht1 ht2
      simp only [List.cons_append, collectLines, hbe, Bool.false_eq_true, if_false, hj,
        if_true, List.countP_cons]
      simp [hbe]
      rw [ih]
      exact congrArg Except.error (by omega)

/-! Claim theorems. -/

/-- C1: for valid batches B1 then B2 saved under one key, the resulting
file tokenizes into the unchanged metadata line followed by record lines
indexed exactly 1..|B1| then |B1|+1..|B1|+|B2| (the `recordLines 1`
enumeration of the concatenated batches); the next index is derived from
the count of existing non-blank data lines plus one, and the metadata
first line is byte-identical after both uploads. -/
theorem upload_two_batches_contiguous (meta meta2 : List Char)
    (B1 B2 : List (List Char))
    (hmn : '\n' ∉ meta) (hmr : meta.getLast? ≠ some '\r')
    (hml : meta.length < maxTokenSize)
    (hB : goodBatch (B1 ++ B2))
    (hrl : ∀ l ∈ recordLines 1 (B1 ++ B2), l.length < maxTokenSize) :
    tokensOf (saveUploadContent meta [] B1) = meta :: recordLines 1 B1 ∧
    countDataLines (saveUploadContent meta [] B1) = B1.length ∧
    tokensOf (saveUploadContent meta2 (saveUploadContent meta [] B1) B2)
      = meta :: recordLines 1 (B1 ++ B2) := by
  have hB1 : goodBatch B1 := goodBatch_append_left hB
  have hrl1 : ∀ l ∈ recordLines 1 B1, l.length < maxTokenSize := by
    intro l hl
    apply hrl
    rw [recordLines_append 1 B1 B2]
    exact List.mem_append.2 (Or.inl hl)
  have hc1 : saveUploadContent meta [] B1
      = meta ++ '\n' :: (encodeRecords 1 B1 ++ []) := by
    rw [saveUploadContent_new]
    simp
  have htok1 : tokensOf (saveUploadContent meta [] B1) = meta :: recordLines 1 B1 := by
    rw [hc1]
    unfold tokensOf
    rw [scan_store_file meta 1 B1 [] hmn hmr hml hB1 hrl1 (by simp) (by decide)]
    simp
  have hcnt1 : countDataLines (saveUploadContent meta [] B1) = B1.length := by
    rw [hc1, count_store_file meta 1 B1 [] hmn hmr hml hB1 hrl1 (by simp) (by decide)
      (by decide)]
    simp [show trimSpace ([] : List Char) = [] from rfl]
  refine ⟨htok1, hcnt1, ?_⟩
  have hlast : (saveUploadContent meta [] B1).getLast? = some '\n' := by
    rw [saveUploadContent_new]
    exact getLast?_append_encode B1 meta 1
  have hne : saveUploadContent meta [] B1 ≠ [] := by
    rw [saveUploadContent_new]
    exact store_prefix_ne_nil _ _
  rw [saveUploadContent_terminated meta2 _ B2 hne hlast, hcnt1, saveUploadContent_new]
  rw [show (meta ++ '\n' :: encodeRecords 1 B1) ++ encodeRecords (B1.length + 1) B2
      = meta ++ '\n' :: (encodeRecords 1 (B1 ++ B2) ++ []) by
    rw [encodeRecords_append 1 B1 B2, Nat.add_comm 1 B1.length]
    simp]
  unfold tokensOf
  rw [scan_store_file meta 1 (B1 ++ B2) [] hmn hmr hml hB hrl (by simp) (by decide)]
  simp

/-- Witness for C1 at a concrete metadata line and two one-record batches. -/
theorem upload_two_batches_contiguous_witness :
    tokensOf (saveUploadContent "m".data [] ["a".data])
      = "m".data :: recordLines 1 ["a".data] ∧
    countDataLines (saveUploadContent "m".data [] ["a".data]) = 1 ∧
    tokensOf (saveUploadContent "x".data
        (saveUploadContent "m".data [] ["a".data]) ["b".data])
      = "m".data :: recordLines 1 (["a".data] ++ ["b".data]) := by
  have h := upload_two_batches_contiguous "m".data "x".data ["a".data] ["b".data]
    (by decide) (by decide) (by decide) (by decide) (by decide)
  exact ⟨h.1, h.2.1, h.2.2⟩

/-- C4: an append to a non-empty file whose final byte is not a newline
writes exactly one corrective newline byte and then the new indexed
records; the previously committed bytes stay unchanged as a prefix. -/
theorem append_repairs_unterminated_tail (meta content : List Char)
    (batch : List (List Char)) (hne : content ≠ [])
    (hlast : content.getLast? ≠ some '\n') :
    saveUploadContent meta content batch
      = content ++ '\n' :: encodeRecords (countDataLines content + 1) batch :=
  saveUploadContent_repair meta content batch hne hlast

/-- Witness for C4 on a concrete unterminated file. -/
theorem append_repairs_unterminated_tail_witness :
    saveUploadContent "x".data ("m\n1,a".data) ["b".data]
      = "m\n1,a".data ++ '\n'
          :: encodeRecords (countDataLines ("m\n1,a".data) + 1) ["b".data] :=
  append_repairs_unterminated_tail "x".data ("m\n1,a".data) ["b".data]
    (by decide) (by decide)

/-- C5 counterexample: in the file `m\n1,a\n2,b` the final line `2,b` is
unterminated, yet the store scan counts two existing records, not one, and
the next batch is written with index 3, not 2: the unterminated trailing
partial line IS counted, contrary to the claim. -/
theorem partial_trailing_line_is_counted :
    countDataLines ("m\n1,a\n2,b".data) = 2 ∧
    saveUploadContent "x".data ("m\n1,a\n2,b".data) ["c".data]
      = "m\n1,a\n2,b\n3,c\n".data ∧
    saveUploadContent "x".data ("m\n1,a\n2,b".data) ["c".data]
      ≠ "m\n1,a\n2,b\n2,c\n".data := by
  refine ⟨by decide, by decide, by decide⟩

/-- C5 (amended): the store scan counts an unterminated trailing non-blank
partial line as an existing record, so after the corrective newline the
next index continues past the partial line rather than reusing its slot:
a file holding |B| terminated records plus partial tail `t` counts
|B| + 1 existing records and the next batch starts at index |B| + 2. -/
theorem partial_trailing_line_amended (meta meta2 t : List Char)
    (B batch : List (List Char))
    (hmn : '\n' ∉ meta) (hmr : meta.getLast? ≠ some '\r')
    (hml : meta.length < maxTokenSize)
    (hB : goodBatch B) (hrl : ∀ l ∈ recordLines 1 B, l.length < maxTokenSize)
    (htn : '\n' ∉ t) (htne : t ≠ []) (htb : (trimSpace t).isEmpty = false)
    (htr : t.getLast? ≠ some '\r') (htl : t.length < maxTokenSize) :
    countDataLines (meta ++ '\n' :: (encodeRecords 1 B ++ t)) = B.length + 1 ∧
    saveUploadContent meta2 (meta ++ '\n' :: (encodeRecords 1 B ++ t)) batch
      = (meta ++ '\n' :: (encodeRecords 1 B ++ t)) ++ '\n'
          :: encodeRecords (B.length + 2) batch := by
  have hcnt : countDataLines (meta ++ '\n' :: (encodeRecords 1 B ++ t))
      = B.length + 1 := by
    rw [count_store_file meta 1 B t hmn hmr hml hB hrl htn htl htr,
      if_neg (by simp [htb])]
  refine ⟨hcnt, ?_⟩
  have hlast : (meta ++ '\n' :: (encodeRecords 1 B ++ t)).getLast? ≠ some '\n' := by
    rw [getLast?_store_tail meta _ t htne,
      List.getLast?_eq_getLast_of_ne_nil htne]
    intro h
    apply htn
    have h' : t.getLast htne = '\n' := by injection h
    exact h' ▸ List.getLast_mem htne
  rw [saveUploadContent_repair meta2 _ batch (store_prefix_ne_nil _ _) hlast, hcnt]

/-- Witness for the amended C5 with one terminated record and the partial
tail `9`. -/
theorem partial_trailing_line_amended_witness :
    countDataLines ("m".data ++ '\n' :: (encodeRecords 1 ["a".data] ++ "9".data))
      = 2 ∧
    saveUploadContent "x".data
        ("m".data ++ '\n' :: (encodeRecords 1 ["a".data] ++ "9".data)) ["c".data]
      = ("m".data ++ '\n' :: (encodeRecords 1 ["a".data] ++ "9".data)) ++ '\n'
          :: encodeRecords 3 ["c".data] :=
  partial_trailing_line_amended "m".data "x".data "9".data ["a".data] ["c".data]
    (by decide) (by decide) (by decide) (by decide) (by decide) (by decide)
    (by decide) (by decide) (by decide) (by decide)

/-- C6: outcome of one append call under failure injection: a successful
call never deletes the file and leaves the appended contents; a failed
call deletes the file exactly when this call found it empty (the path
that writes the metadata line), and otherwise leaves the pre-existing
contents exactly as they were. -/
theorem append_failure_cleanup (meta : List Char) (old : Option (List Char))
    (batch : List (List Char)) (fail : Option FailStage) :
    ((saveUploadRun meta old batch fail).2 = true →
      (saveUploadRun meta old batch fail).1
        = some (saveUploadContent meta (old.getD []) batch)) ∧
    ((saveUploadRun meta old batch fail).2 = false →
      ((old.getD []).isEmpty = true →
        (saveUploadRun meta old batch fail).1 = none) ∧
      ((old.getD []).isEmpty = false →
        (saveUploadRun meta old batch fail).1 = some (old.getD []))) := by
  unfold saveUploadRun
  by_cases h1 : (!(old.getD []).isEmpty
      && (scanErrOf (old.getD []) || fail == some FailStage.duringScan)) = true
  · rw [if_pos h1]
    refine ⟨fun h => absurd h (by simp), fun _ => ⟨fun hemp => ?_, fun _ => rfl⟩⟩
    rw [hemp] at h1
    simp at h1
  · rw [if_neg h1]
    by_cases h2 : (fail == some FailStage.duringWrite
        || fail == some FailStage.duringFlush) = true
    · rw [if_pos h2]
      refine ⟨fun h => absurd h (by simp), fun _ => ⟨fun hemp => ?_, fun hne => ?_⟩⟩
      · simp [hemp]
      · simp [hne]
    · rw [if_neg h2]
      exact ⟨fun _ => rfl, fun h => by simp at h⟩

/-- Witness for C6: a write failure while creating a brand-new file
removes the file, and the same failure on a pre-existing file keeps it. -/
theorem append_failure_cleanup_witness :
    (saveUploadRun "m".data none ["a".data] (some .duringWrite)).1 = none ∧
    (saveUploadRun "m".data (some "m\n1,a\n".data) ["b".data]
        (some .duringFlush)).1 = some ("m\n1,a\n".data) := by
  constructor
  · exact ((append_failure_cleanup "m".data none ["a".data]
      (some .duringWrite)).2 (by decide)).1 (by decide)
  · exact ((append_failure_cleanup "m".data (some "m\n1,a\n".data) ["b".data]
      (some .duringFlush)).2 (by decide)).2 (by decide)

/-- C7: an upload is admitted only when the normalized session key is
present, has the exact expected hexadecimal length, hex-decodes, and was
issued by the registry; whenever any of these checks fails the handler
answers with status 400 and the store state for the key is untouched. -/
theorem upload_admission_rejects (jsonValid : List Char → Bool) (rawKey : List Char)
    (registry : List (List Char)) (body meta : List Char) (store : Option (List Char))
    (h : ¬((trimSpace rawKey).map toLowerChar ≠ [] ∧
        ((trimSpace rawKey).map toLowerChar).length = uploadKeyHexLength ∧
        (hexDecode ((trimSpace rawKey).map toLowerChar)).isSome = true ∧
        registry.contains ((trimSpace rawKey).map toLowerChar) = true)) :
    statusOf (uploadHandler jsonValid rawKey registry body meta store).resp = 400 ∧
    (uploadHandler jsonValid rawKey registry body meta store).store = store := by
  unfold uploadHandler
  by_cases h1 : ((trimSpace rawKey).map toLowerChar).isEmpty = true
  · rw [if_pos h1]
    exact ⟨rfl, rfl⟩
  · rw [if_neg h1]
    by_cases h2 : ((trimSpace rawKey).map toLowerChar).length ≠ uploadKeyHexLength
    · rw [if_pos h2]
      exact ⟨rfl, rfl⟩
    · rw [if_neg h2]
      by_cases h3 : (hexDecode ((trimSpace rawKey).map toLowerChar)).isNone = true
      · rw [if_pos h3]
        exact ⟨rfl, rfl⟩
      · rw [if_neg h3]
        by_cases h4 : (!(registry.contains ((trimSpace rawKey).map toLowerChar))) = true
        · rw [if_pos h4]
          exact ⟨rfl, rfl⟩
        · exfalso
          apply h
          refine ⟨?_, not_ne_iff.mp h2, ?_, ?_⟩
          · intro he
            exact h1 (by simp [he])
          · cases hox : hexDecode ((trimSpace rawKey).map toLowerChar) with
            | none => exact absurd (by rw [hox]; rfl) h3
            | some v => rfl
          · simpa using h4

set_option maxRecDepth 8192 in
/-- Witness for C7: a well-shaped key never issued by the registry is
rejected with 400 and no write. -/
theorem upload_admission_rejects_witness :
    statusOf (uploadHandler (fun _ => true) (List.replicate 128 'a') [] "x".data
        "m".data none).resp = 400 ∧
    (uploadHandler (fun _ => true) (List.replicate 128 'a') [] "x".data
        "m".data none).store = none :=
  upload_admission_rejects (fun _ => true) (List.replicate 128 'a') [] "x".data
    "m".data none (by decide)

/-- C3: when the admitted body holds a first non-blank line failing the
JSON check, the handler reports exactly that line number (one more than
the count of accepted non-blank lines before it) with status 400 and the
store state is exactly what it was before the call. -/
theorem upload_invalid_json_rejected (jsonValid : List Char → Bool) (rawKey : List Char)
    (registry : List (List Char)) (body meta : List Char) (store : Option (List Char))
    (pre : List (List Char)) (t : List Char) (post : List (List Char))
    (hk1 : (trimSpace rawKey).map toLowerChar ≠ [])
    (hk2 : ((trimSpace rawKey).map toLowerChar).length = uploadKeyHexLength)
    (hk3 : (hexDecode ((trimSpace rawKey).map toLowerChar)).isSome = true)
    (hk4 : registry.contains ((trimSpace rawKey).map toLowerChar) = true)
    (hsplit : tokensOf body = pre ++ t :: post)
    (hpre : ∀ u ∈ pre, (trimSpace u).isEmpty = true ∨ jsonValid (trimSpace u) = true)
    (ht1 : (trimSpace t).isEmpty = false) (ht2 : jsonValid (trimSpace t) = false) :
    uploadHandler jsonValid rawKey registry body meta store
      = ⟨.badJson (pre.countP (fun u => !(trimSpace u).isEmpty) + 1), store⟩ ∧
    statusOf (uploadHandler jsonValid rawKey registry body meta store).resp = 400 := by
  have hmain : uploadHandler jsonValid rawKey registry body meta store
      = ⟨.badJson (pre.countP (fun u => !(trimSpace u).isEmpty) + 1), store⟩ := by
    unfold uploadHandler
    rw [if_neg (by simp [hk1] : ¬((trimSpace rawKey).map toLowerChar).isEmpty = true),
      if_neg (not_not.mpr hk2)]
    have h3 : (hexDecode ((trimSpace rawKey).map toLowerChar)).isNone = false := by
      cases hox : hexDecode ((trimSpace rawKey).map toLowerChar) with
      | none => rw [hox] at hk3; exact absurd hk3 (by decide)
      | some v => rfl
    rw [if_neg (by simp [h3]), if_neg (by rw [hk4]; decide), hsplit,
      collectLines_first_invalid jsonValid pre 0 t post hpre ht1 ht2]
    simp
  exact ⟨hmain, by rw [hmain]; rfl⟩

set_option maxRecDepth 8192 in
/-- Witness for C3 on a one-line body whose line fails the JSON check. -/
theorem upload_invalid_json_rejected_witness :
    uploadHandler (fun _ => false) (List.replicate 128 'a')
        [List.replicate 128 'a'] "bad".data "m".data none
      = ⟨.badJson 1, none⟩ := by
  have h := (upload_invalid_json_rejected (fun _ => false) (List.replicate 128 'a')
    [List.replicate 128 'a'] "bad".data "m".data none [] "bad".data []
    (by decide) (by decide) (by decide) (by decide) (by decide)
    (by intro u hu; exact absurd hu (List.not_mem_nil u)) (by decide) (by decide)).1
  simpa using h

/-- C9: an admitted upload with a blank-only body on a key with no file
yet succeeds with zero records and creates the log file holding exactly
the metadata line and nothing else. -/
theorem upload_blank_body_creates_file (jsonValid : List Char → Bool) (rawKey : List Char)
    (registry : List (List Char)) (body meta : List Char)
    (hk1 : (trimSpace rawKey).map toLowerChar ≠ [])
    (hk2 : ((trimSpace rawKey).map toLowerChar).length = uploadKeyHexLength)
    (hk3 : (hexDecode ((trimSpace rawKey).map toLowerChar)).isSome = true)
    (hk4 : registry.contains ((trimSpace rawKey).map toLowerChar) = true)
    (hblank : ∀ u ∈ tokensOf body, (trimSpace u).isEmpty = true)
    (hscan : scanErrOf body = false) :
    uploadHandler jsonValid rawKey registry body meta none
      = ⟨.accepted 0, some (meta ++ ['\n'])⟩ := by
  unfold uploadHandler
  rw [if_neg (by simp [hk1] : ¬((trimSpace rawKey).map toLowerChar).isEmpty = true),
    if_neg (not_not.mpr hk2)]
  have h3 : (hexDecode ((trimSpace rawKey).map toLowerChar)).isNone = false := by
    cases hox : hexDecode ((trimSpace rawKey).map toLowerChar) with
    | none => rw [hox] at hk3; exact absurd hk3 (by decide)
    | some v => rfl
  rw [if_neg (by simp [h3]), if_neg (by rw [hk4]; decide),
    collectLines_all_blank jsonValid 0 (tokensOf body) hblank]
  show (if scanErrOf body = true then _ else _) = _
  rw [if_neg (by simp [hscan])]
  simp [saveUploadContent_new, encodeRecords]

set_option maxRecDepth 8192 in
/-- Witness for C9 with a body of blank lines only. -/
theorem upload_blank_body_creates_file_witness :
    uploadHandler (fun _ => true) (List.replicate 128 'a')
        [List.replicate 128 'a'] " \n\n ".data "m".data none
      = ⟨.accepted 0, some ("m".data ++ ['\n'])⟩ :=
  upload_blank_body_creates_file (fun _ => true) (List.replicate 128 'a')
    [List.replicate 128 'a'] " \n\n ".data "m".data
    (by decide) (by decide) (by decide) (by decide) (by decide) (by decide)

/-- C10: an admitted upload whose body is a single line of at least the
16 MiB scanner limit makes the line scanner fail; the handler reports the
body-read error with status 400 and writes nothing. -/
theorem upload_oversized_line_read_error (jsonValid : List Char → Bool) (rawKey : List Char)
    (registry : List (List Char)) (body meta : List Char) (store : Option (List Char))
    (hk1 : (trimSpace rawKey).map toLowerChar ≠ [])
    (hk2 : ((trimSpace rawKey).map toLowerChar).length = uploadKeyHexLength)
    (hk3 : (hexDecode ((trimSpace rawKey).map toLowerChar)).isSome = true)
    (hk4 : registry.contains ((trimSpace rawKey).map toLowerChar) = true)
    (hnl : '\n' ∉ body) (hlen : maxTokenSize ≤ body.length) :
    uploadHandler jsonValid rawKey registry body meta store = ⟨.readErr, store⟩ ∧
    statusOf (uploadHandler jsonValid rawKey registry body meta store).resp = 400 := by
  have hsc : scanGo maxTokenSize (chunksOf body) = ([], true) := by
    rw [chunksOf_no_nl body hnl]
    simp [scanGo, hlen]
  have hmain : uploadHandler jsonValid rawKey registry body meta store
      = ⟨.readErr, store⟩ := by
    unfold uploadHandler
    rw [if_neg (by simp [hk1] : ¬((trimSpace rawKey).map toLowerChar).isEmpty = true),
      if_neg (not_not.mpr hk2)]
    have h3 : (hexDecode ((trimSpace rawKey).map toLowerChar)).isNone = false := by
      cases hox : hexDecode ((trimSpace rawKey).map toLowerChar) with
      | none => rw [hox] at hk3; exact absurd hk3 (by decide)
      | some v => rfl
    rw [if_neg (by simp [h3]), if_neg (by rw [hk4]; decide)]
    have htok : tokensOf body = [] := by
      unfold tokensOf
      rw [hsc]
    have herr : scanErrOf body = true := by
      unfold scanErrOf
      rw [hsc]
    rw [htok]
    show (if scanErrOf body = true then _ else _) = _
    rw [if_pos herr]
  exact ⟨hmain, by rw [hmain]; rfl⟩

set_option maxRecDepth 8192 in
/-- Witness for C10 on a single unterminated line one byte past the limit. -/
theorem upload_oversized_line_read_error_witness :
    uploadHandler (fun _ => true) (List.replicate 128 'a')
        [List.replicate 128 'a'] (List.replicate (16 * 1024 * 1024 + 1) 'x')
        "m".data none
      = ⟨.readErr, none⟩ :=
  (upload_oversized_line_read_error (fun _ => true) (List.replicate 128 'a')
    [List.replicate 128 'a'] (List.replicate (16 * 1024 * 1024 + 1) 'x') "m".data none
    (by decide) (by decide) (by decide) (by decide)
    (by
      intro hmem
      rw [List.mem_replicate] at hmem
      exact absurd hmem.2 (by decide))
    (by
      rw [List.length_replicate]
      decide)).1

/-- C2: follow semantics over the log file — no file gives no new data
with cursor 0; with `total` stored data lines, a cursor at least `total`
gives no new data and the new cursor `total`; a smaller cursor gives new
data, the new cursor `total`, and exactly the stored data lines at
positions past the cursor (indices in the half-open range above the
cursor), in stored order and in their stored textual form. -/
theorem follow_cursor_semantics (file : Option (List Char)) (cursor : Nat) :
    (file = none → handleFollow file cursor = .noData 0) ∧
    (∀ c, file = some c →
      ((dataLinesOf c).length ≤ cursor →
        handleFollow file cursor = .noData (dataLinesOf c).length) ∧
      (cursor < (dataLinesOf c).length →
        handleFollow file cursor
          = .data (dataLinesOf c).length ((dataLinesOf c).drop cursor) ∧
        ((dataLinesOf c).drop cursor).length = (dataLinesOf c).length - cursor ∧
        ∀ j : Nat, ((dataLinesOf c).drop cursor)[j]? = (dataLinesOf c)[cursor + j]?)) := by
  constructor
  · intro h
    subst h
    rfl
  · intro c h
    subst h
    have hred : handleFollow (some c) cursor
        = if (dataLinesOf c).length ≤ cursor then FollowResp.noData (dataLinesOf c).length
          else FollowResp.data (dataLinesOf c).length ((dataLinesOf c).drop cursor) := rfl
    constructor
    · intro hle
      rw [hred, if_pos hle]
    · intro hgt
      refine ⟨?_, ?_, ?_⟩
      · rw [hred, if_neg (Nat.not_le.2 hgt)]
      · exact List.length_drop cursor _
      · intro j
        exact List.getElem?_drop _ cursor j

/-- Witness for C2: no file yields no data at cursor 0, and a two-record
file at cursor 1 yields exactly the second stored line. -/
theorem follow_cursor_semantics_witness :
    handleFollow none 0 = FollowResp.noData 0 ∧
    handleFollow (some ("m\n1,a\n2,b\n".data)) 1 = FollowResp.data 2 ["2,b".data] := by
  constructor
  · exact (follow_cursor_semantics none 0).1 rfl
  · have h := (((follow_cursor_semantics (some ("m\n1,a\n2,b\n".data)) 1).2
      ("m\n1,a\n2,b\n".data) rfl).2 (by decide)).1
    exact h.trans (by decide)

/-- C8: the session naming function is a pure function of the key; for a
key whose normalized form hex-decodes to at least eight bytes it joins
exactly four words, the i-th chosen by the 16-bit big-endian value of
bytes 2i and 2i+1 reduced modulo the word-list length; for a key that
fails hex decoding or decodes to fewer bytes it is the fixed fallback. -/
theorem upload_name_characterization (key : List Char) :
    (∀ bytes, hexDecode ((trimSpace key).map toLowerChar) = some bytes →
      (uploadNameWordCount * 2 ≤ bytes.length →
        uploadNameFromKey key
          = joinSpace [nameWordAt bytes 0, nameWordAt bytes 1,
              nameWordAt bytes 2, nameWordAt bytes 3]) ∧
      (bytes.length < uploadNameWordCount * 2 →
        uploadNameFromKey key = "upload".data)) ∧
    (hexDecode ((trimSpace key).map toLowerChar) = none →
      uploadNameFromKey key = "upload".data) := by
  constructor
  · intro bytes hb
    constructor
    · intro hlen
      unfold uploadNameFromKey
      rw [if_neg (by decide : ¬uploadNameWords.length = 0), hb]
      show (if bytes.length < uploadNameWordCount * 2 then _ else _) = _
      rw [if_neg (Nat.not_lt.2 hlen),
        show List.range uploadNameWordCount = [0, 1, 2, 3] from rfl]
      rfl
    · intro hlen
      unfold uploadNameFromKey
      rw [if_neg (by decide : ¬uploadNameWords.length = 0), hb]
      show (if bytes.length < uploadNameWordCount * 2 then _ else _) = _
      rw [if_pos hlen]
  · intro hb
    unfold uploadNameFromKey
    rw [if_neg (by decide : ¬uploadNameWords.length = 0), hb]

/-- Witness for C8 at a concrete sixteen-digit hex key: the four words
derived from byte pairs (0,1), (2,3), (4,5), (6,7). -/
theorem upload_name_characterization_witness :
    uploadNameFromKey "0001020304050607".data
      = "battery voyage correct uplink".data := by
  have h := ((upload_name_characterization "0001020304050607".data).1
    [0, 1, 2, 3, 4, 5, 6, 7] (by decide)).1 (by decide)
  exact h.trans (by decide)

end HRDemo
